import Mathlib

/-!
Shallow embedding of the assignment-search core of the `boomwhackers` repository
(`src/assign.rs`, with supporting types from `src/note.rs` and `src/music_xml.rs`),
together with theorems settling the specification claims about it.

Modelling conventions:
* `Note` (an `i8` count of semitones) is embedded as `Int`; no claim exercises
  `i8` overflow.
* `Timestamp` (an `OrderedFloat<f64>` count of seconds) and scores (`f64`) are
  embedded as `ℚ`: schedule data holds finitely many real second counts and the
  cost model only adds, subtracts, compares and takes reciprocals of positives,
  so no NaN or infinity arises.
* The `ChaCha8Rng` generator is embedded as an abstract deterministic state
  machine `RngOps σ`; the initial state stands for `ChaCha8Rng::seed_from_u64(seed)`.
* A Rust panic that is reachable on the inputs a claim is about is modelled by
  an `Option` result (`rand`'s `gen_range(0..0)` panic in `make_swap`).
-/

namespace Boomwhackers

/-- Model of `Note` (`note.rs`): semitones above C0. -/
abbrev Note := Int

/-- Model of `Timestamp` (`music_xml.rs`): elapsed seconds since the start. -/
abbrev Timestamp := ℚ

/-- Model of `Whack` (`music_xml.rs:27-34`): a hit's timestamp plus the 0-based index
of its `<note>` tag in the source XML and of the first `<note>` of its chord.  Its
derived `Ord` compares the fields lexicographically in declaration order. -/
structure Whack where
  timestamp : Timestamp
  noteIdx : Nat
  chordNoteIdx : Nat
deriving DecidableEq, Repr

instance : Inhabited Whack := ⟨⟨0, 0, 0⟩⟩

/-- The derived lexicographic strict order of `Whack` (fields in declaration order),
as used by `PartialOrd::lt` on the keys of `position_min_by_key`. -/
def Whack.blt (a b : Whack) : Bool :=
  decide (a.timestamp < b.timestamp) ||
    (decide (a.timestamp = b.timestamp) &&
      (decide (a.noteIdx < b.noteIdx) ||
        (decide (a.noteIdx = b.noteIdx) && decide (a.chordNoteIdx < b.chordNoteIdx))))

/-- Model of `MusicXmlScore` (`music_xml.rs:20-24`) as consumed by the search: the
`whacks: HashMap<Note, Vec<Whack>>` map.  `keys` is the key list in the arbitrary
iteration order of the hash map; `whacks` is the lookup function (`[]` off the keys).
The loader guarantees that each present note has a non-empty, ascending whack list;
claims assume that as hypotheses where they need it. -/
structure MusicXmlScore where
  keys : List Note
  whacks : Note → List Whack

/-- Abstract model of the `rand` generator: a deterministic state machine over states
`σ`.  `genRange n s` models `rng.gen_range(0..n)` (in `rand` this panics when `n = 0`;
the one reachable case is modelled explicitly in `make_swap`), and `shuffle l s`
models `l.shuffle(&mut rng)`. -/
structure RngOps (σ : Type) where
  genRange : Nat → σ → Nat × σ
  shuffle : List Note → σ → List Note × σ

/-- Model of the slice `&l[r.1 .. r.2]`; every range built by the search is in
bounds, where this equals the Rust slice. -/
def slice (l : List α) (r : Nat × Nat) : List α :=
  (l.drop r.1).take (r.2 - r.1)

/-- Model of `Vec::swap` (`assign.rs:136`).  In the search both indices are drawn
below `l.length`; on out-of-bounds indices (where the source would panic, never
reached through a lawful generator) the list is returned unchanged. -/
def listSwap (l : List α) (i j : Nat) : List α :=
  match l[i]?, l[j]? with
  | some a, some b => (l.set i b).set j a
  | _, _ => l

/-- Scanning loop of `Itertools::position_min_by_key`: `bestk`/`besti` are the
current minimal key and its position, `i` the position of the list head. -/
def positionMinWhackAux (key : α → Whack) : List α → Whack → Nat → Nat → Nat
  | [], _, besti, _ => besti
  | y :: ys, bestk, besti, i =>
    if (key y).blt bestk then positionMinWhackAux key ys (key y) i (i + 1)
    else positionMinWhackAux key ys bestk besti (i + 1)

/-- Model of `Itertools::position_min_by_key` with a `Whack`-valued key
(`assign.rs:182-185`): the position of the first element whose key is minimal under
the derived `Ord` of `Whack`. -/
def positionMinWhack (key : α → Whack) : List α → Option Nat
  | [] => none
  | x :: xs => some (positionMinWhackAux key xs (key x) 0 1)

/-- The initialisation of `last_played_iter_idx` in `score_for_hand`
(`assign.rs:182-185`): the hand position minimising `music.whacks[note][0]` under the
full `Whack` order.  The `unwrap` cannot fail because the caller guarantees a hand of
more than one whacker; the indexing `[0]` relies on the loader's non-emptiness
invariant, defaulted here via `headI`. -/
def initialHeldIdx (music : MusicXmlScore) (hand : List Note) : Nat :=
  (positionMinWhack (fun n => (music.whacks n).headI) hand).getD 0

/-- Scanning loop for `best_next_time` / `next_iter_idx` (`assign.rs:189-199`). -/
def findNextAux : List (List Whack) → Nat → Option (Nat × Timestamp) → Option (Nat × Timestamp)
  | [], _, best => best
  | iter :: rest, i, best =>
    match iter.head? with
    | none => findNextAux rest (i + 1) best
    | some w =>
      match best with
      | none => findNextAux rest (i + 1) (some (i, w.timestamp))
      | some (bi, bt) =>
        if w.timestamp < bt then findNextAux rest (i + 1) (some (i, w.timestamp))
        else findNextAux rest (i + 1) (some (bi, bt))

/-- Model of the scan for the next hit in `score_for_hand`'s loop (`assign.rs:188-203`):
the first iterator holding the smallest next timestamp (strict `<` update, so the
earliest iterator wins ties).  The source's starting value `Timestamp::MAX` is
modelled by `none`; real schedules never contain `f64::MAX` seconds. -/
def findNext (iters : List (List Whack)) : Option (Nat × Timestamp) :=
  findNextAux iters 0 none

/-- The consumption `whack_iterators[next_iter_idx].next()` (`assign.rs:206-209`). -/
def popAt (iters : List (List Whack)) (i : Nat) : List (List Whack) :=
  iters.set i (iters.getD i []).tail

/-- The main loop of `score_for_hand` (`assign.rs:187-224`) with its state made
explicit: the per-instrument iterators, `last_played_iter_idx`, `last_whack_time` and
the running score.  One whack is consumed per iteration, so any fuel beyond the total
number of whacks makes the result independent of the fuel. -/
def mergeLoop : Nat → List (List Whack) → Nat → Timestamp → ℚ → ℚ
  | 0, _, _, _, score => score
  | fuel + 1, iters, lastIdx, lastTime, score =>
    match findNext iters with
    | none => score
    | some (nextIdx, bestTime) =>
      let score' :=
        if lastIdx ≠ nextIdx then
          score - 1 / (if bestTime - lastTime < 1 / 100 then 1 / 100 else bestTime - lastTime)
        else score
      mergeLoop fuel (popAt iters nextIdx) nextIdx bestTime score'

/-- Model of `score_for_hand` (`assign.rs:164-227`). -/
def score_for_hand (whackers_in_hand : List Note) (music : MusicXmlScore) : ℚ :=
  if whackers_in_hand.length ≤ 1 then 0
  else
    let iters := whackers_in_hand.map (fun note => music.whacks note)
    mergeLoop ((iters.map List.length).sum + 1) iters (initialHeldIdx music whackers_in_hand) 0 0

/-- Model of `score_for_player` (`assign.rs:157-159`). -/
def score_for_player (left_hand right_hand : List Note) (music : MusicXmlScore) : ℚ :=
  score_for_hand left_hand music + score_for_hand right_hand music

/-- Model of `FastAssignment` (`assign.rs:46-55`): the flat concatenated whacker list,
and per-player pairs of half-open index ranges (start, end) into it. -/
structure FastAssignment where
  whackers : List Note
  players : List ((Nat × Nat) × (Nat × Nat))
deriving DecidableEq, Repr

/-- Model of `FastAssignment::score` (`assign.rs:140-150`). -/
def FastAssignment.score (a : FastAssignment) (music : MusicXmlScore) : ℚ :=
  a.players.foldl
    (fun sc p => sc + score_for_player (slice a.whackers p.1) (slice a.whackers p.2) music) 0

/-- The hands of an assignment as note lists, in player order (left then right). -/
def FastAssignment.hands (a : FastAssignment) : List (List Note) :=
  a.players.flatMap (fun p => [slice a.whackers p.1, slice a.whackers p.2])

/-- The flat list of hand ranges, in player order (left then right). -/
def FastAssignment.flatRanges (a : FastAssignment) : List (Nat × Nat) :=
  a.players.flatMap (fun p => [p.1, p.2])

/-- The hand-range construction loop of `FastAssignment::random` (`assign.rs:115-123`):
`count` hands remain to build, `i` is the loop index and `alloc` the running
`whackers_allocated`. -/
def buildHandsAux (base extra : Nat) : Nat → Nat → Nat → List (Nat × Nat)
  | 0, _, _ => []
  | count + 1, i, alloc =>
    let numWhackers := base + if i < extra then 1 else 0
    (alloc, alloc + numWhackers) :: buildHandsAux base extra count (i + 1) (alloc + numWhackers)

/-- The hand ranges of `FastAssignment::random`: each of `numHands` hands receives
`base` whackers and the first `extra` hands one more, allocated consecutively. -/
def buildHands (base extra numHands : Nat) : List (Nat × Nat) :=
  buildHandsAux base extra numHands 0 0

/-- Model of `Itertools::tuples::<(_, _)>` (`assign.rs:76,126`): adjacent pairs, any
incomplete trailing group dropped. -/
def pairUp : List α → List (α × α)
  | a :: b :: rest => (a, b) :: pairUp rest
  | _ => []

/-- Model of `FastAssignment::random` (`assign.rs:103-129`): sort the schedule's keys
(erasing the hash map's iteration order), shuffle them, then tile the result with
consecutive hand ranges of near-equal size and pair the hands into players.
`Vec::sort` is a stable sort by `≤`; it is embedded as insertion sort, which computes
the same function as every other stable sort by the same total order. -/
def FastAssignment.random (rng : RngOps σ) (music : MusicXmlScore) (numPlayers : Nat)
    (s : σ) : FastAssignment × σ :=
  let numHands := numPlayers * 2
  let sortedKeys := List.insertionSort (· ≤ ·) music.keys
  let shuffled := rng.shuffle sortedKeys s
  let whackers := shuffled.1
  let base := whackers.length / numHands
  let extra := whackers.length % numHands
  let hands := buildHands base extra numHands
  (⟨whackers, pairUp hands⟩, shuffled.2)

/-- Model of `FastAssignment::make_swap` (`assign.rs:133-137`).  With an empty whacker
list `rng.gen_range(0..0)` panics in `rand`; that panic is modelled as `none`. -/
def FastAssignment.make_swap (rng : RngOps σ) (a : FastAssignment) (s : σ) :
    Option (FastAssignment × σ) :=
  if a.whackers.length = 0 then none
  else
    let d1 := rng.genRange a.whackers.length s
    let d2 := rng.genRange a.whackers.length d1.2
    some (⟨listSwap a.whackers d1.1 d2.1, a.players⟩, d2.2)

/-- One iteration of the loop of `FastAssignment::gradient_ascent` (`assign.rs:90-98`):
clone the current assignment, mutate the clone by one swap, and move to it exactly
when its score is strictly greater. -/
def gradientStep (rng : RngOps σ) (music : MusicXmlScore) (a : FastAssignment) (s : σ) :
    Option (FastAssignment × σ) :=
  (FastAssignment.make_swap rng a s).map
    (fun n => if n.1.score music > a.score music then n else (a, n.2))

/-- The iterated inner loop of `gradient_ascent`, run `n` times. -/
def gradientLoop (rng : RngOps σ) (music : MusicXmlScore) :
    Nat → FastAssignment → σ → Option (FastAssignment × σ)
  | 0, a, s => some (a, s)
  | n + 1, a, s => (gradientStep rng music a s).bind (fun p => gradientLoop rng music n p.1 p.2)

/-- Model of `FastAssignment::gradient_ascent` (`assign.rs:83-100`): one restart, a
random initial assignment improved by 1000 accept-if-strictly-better swap steps. -/
def gradient_ascent (rng : RngOps σ) (music : MusicXmlScore) (numPlayers : Nat) (s : σ) :
    Option (FastAssignment × σ) :=
  let r := FastAssignment.random rng music numPlayers s
  gradientLoop rng music 1000 r.1 r.2

/-- The restart sequence `(0..n).map(|_| gradient_ascent(..))` of `from_search`
(`assign.rs:62-63`), with the single generator threaded through in restart order. -/
def runRestarts (rng : RngOps σ) (music : MusicXmlScore) (numPlayers : Nat) :
    Nat → σ → Option (List FastAssignment × σ)
  | 0, s => some ([], s)
  | n + 1, s =>
    (gradient_ascent rng music numPlayers s).bind
      (fun p => (runRestarts rng music numPlayers n p.2).map (fun q => (p.1 :: q.1, q.2)))

/-- Model of `Iterator::max_by_key` with key `OrderedFloat(score)` (`assign.rs:64`):
the fold of `core::cmp::max_by`, which keeps the earlier element only when the later
one's key is strictly smaller — so on equal keys the later element wins. -/
def maxByScore (music : MusicXmlScore) : List FastAssignment → Option FastAssignment
  | [] => none
  | x :: xs =>
    some (xs.foldl (fun best a => if a.score music < best.score music then best else a) x)

/-- Model of the in-place range sort `assignment.whackers[range].sort()`
(`assign.rs:72-74`), for an in-bounds range (a stable sort, embedded as insertion
sort). -/
def sortRange (l : List Note) (r : Nat × Nat) : List Note :=
  l.take r.1 ++ List.insertionSort (· ≤ ·) (slice l r) ++ l.drop r.2

/-- Boolean `≤` on `Option<Note>` under Rust's derived order (`None` least), the key
order of the `sort_by_key` at `assign.rs:75`. -/
def optNoteLe (a b : Option Note) : Bool :=
  match a, b with
  | none, _ => true
  | some _, none => false
  | some x, some y => decide (x ≤ y)

/-- The presentation step of `from_search` (`assign.rs:66-78`): flatten the players
into the hand-range list, sort each hand's slice of the whacker list in place, sort
the hand ranges by their first (lowest) note, and re-pair adjacent hands into
players. -/
def presentStep (a : FastAssignment) : FastAssignment :=
  let hands := a.players.flatMap (fun p => [p.1, p.2])
  let whackers := hands.foldl sortRange a.whackers
  let sortedHands := List.insertionSort
    (fun r1 r2 => optNoteLe (slice whackers r1).head? (slice whackers r2).head? = true) hands
  ⟨whackers, pairUp sortedHands⟩

/-- Model of `FastAssignment::from_search` (`assign.rs:59-79`).  The state `s` stands
for `ChaCha8Rng::seed_from_u64(seed)`; the result is the presentation of the best of
100 restarts (`none` models a panicking restart, reachable only on an empty whacker
list). -/
def FastAssignment.from_search (rng : RngOps σ) (music : MusicXmlScore) (numPlayers : Nat)
    (s : σ) : Option FastAssignment :=
  (runRestarts rng music numPlayers 100 s).bind
    (fun p => (maxByScore music p.1).map presentStep)

/-- Model of `Assignment` (`assign.rs:16-19`). -/
structure Assignment where
  players : List (List Note × List Note)
  score : ℚ
deriving DecidableEq, Repr

/-- Model of `Assignment::new` (`assign.rs:22-37`). -/
def Assignment.new (rng : RngOps σ) (music : MusicXmlScore) (numPlayers : Nat) (s : σ) :
    Option Assignment :=
  (FastAssignment.from_search rng music numPlayers s).map
    (fun fa =>
      ⟨fa.players.map (fun p => (slice fa.whackers p.1, slice fa.whackers p.2)),
       fa.score music⟩)

/-- The ranges `rs` tile the index interval from `start` to `stop` consecutively. -/
def rangesConsecutive : Nat → List (Nat × Nat) → Nat → Prop
  | start, [], stop => start = stop
  | start, r :: rest, stop => r.1 = start ∧ start ≤ r.2 ∧ rangesConsecutive r.2 rest stop

/-- The initial-hold rule as the specification words it (claim C6): the position of
the instrument with the earliest first timestamp, ties broken by the hand's
enumeration order (the first such position wins).  Written only for comparison
against the code's `initialHeldIdx`, which keys the minimum on the full `Whack`
value. -/
def specInitialHeldIdx (music : MusicXmlScore) (hand : List Note) : Nat :=
  (positionMinWhack (fun n => ⟨((music.whacks n).headI).timestamp, 0, 0⟩) hand).getD 0

/-- The search invariant: the flat whacker list is a permutation of the schedule's
key list, and the hand ranges are exactly the ones `FastAssignment::random` builds
(they are never touched again during a restart). -/
def InvR (music : MusicXmlScore) (numPlayers : Nat) (a : FastAssignment) : Prop :=
  a.whackers.Perm music.keys ∧
  a.flatRanges =
    buildHands (music.keys.length / (numPlayers * 2)) (music.keys.length % (numPlayers * 2))
      (numPlayers * 2)

/-!  Concrete generators and schedules used to instantiate the theorems. -/

/-- A trivial deterministic generator: `gen_range` always draws 0 and `shuffle`
returns the list unchanged. -/
def rngId : RngOps Unit := ⟨fun _ s => (0, s), fun l s => (l, s)⟩

/-- The empty schedule: no instruments at all. -/
def musicEmpty : MusicXmlScore := ⟨[], fun _ => []⟩

/-- A one-instrument schedule: note 0 is hit once at time 0. -/
def musicOne : MusicXmlScore := ⟨[0], fun n => if n = 0 then [⟨0, 0, 0⟩] else []⟩

/-- The random initial assignment for `musicOne`, one player, under `rngId`. -/
def aOne : FastAssignment := ⟨[0], [((0, 1), (1, 1))]⟩

/-- Two instruments whose single hits coincide at time 0; note 0 appears first in the
source XML (`note_idx` 0), note 1 second. -/
def whacksTie : Note → List Whack :=
  fun n => if n = 0 then [⟨0, 0, 0⟩] else if n = 1 then [⟨0, 1, 1⟩] else []

/-- The coinciding-onset schedule, keys listed as `[0, 1]`. -/
def musicTie : MusicXmlScore := ⟨[0, 1], whacksTie⟩

/-- The same schedule contents with the hash map iterating its keys the other way. -/
def musicTieRev : MusicXmlScore := ⟨[1, 0], whacksTie⟩

/-- Two instruments with onsets 0.001 s apart (claim C7's scenario). -/
def musicClose : MusicXmlScore :=
  ⟨[0, 1], fun n => if n = 0 then [⟨0, 0, 0⟩] else if n = 1 then [⟨1 / 1000, 1, 1⟩] else []⟩

/-- Two instruments with onsets 0.5 s apart (above the clamp floor). -/
def musicHalf : MusicXmlScore :=
  ⟨[0, 1], fun n => if n = 0 then [⟨0, 0, 0⟩] else if n = 1 then [⟨1 / 2, 1, 1⟩] else []⟩

/-- A generator whose `shuffle` reverses the list on every state except 0 and
advances the state, while `gen_range` draws 0 and keeps the state: restart 0 starts
from the sorted key order, every later restart from the reversed order, and no swap
step ever changes an assignment. -/
def rngRev : RngOps Nat :=
  ⟨fun _ s => (0, s), fun l s => (if s = 0 then l else l.reverse, s + 1)⟩

/-- Three instruments hit once each, at 0 s, 10 s and 20 s. -/
def whacksThree : Note → List Whack :=
  fun n =>
    if n = 0 then [⟨0, 0, 0⟩]
    else if n = 1 then [⟨10, 1, 1⟩] else if n = 2 then [⟨20, 2, 2⟩] else []

/-- The three-instrument schedule. -/
def musicThree : MusicXmlScore := ⟨[0, 1, 2], whacksThree⟩

/-- Restart 0's result on `musicThree` under `rngRev`: hands `{0, 1}` and `{2}`. -/
def aThreeFwd : FastAssignment := ⟨[0, 1, 2], [((0, 2), (2, 3))]⟩

/-- Every later restart's result on `musicThree` under `rngRev`: hands `{2, 1}` and
`{0}`.  Its score ties with `aThreeFwd` (both cost one switch over a 10 s gap). -/
def aThreeRev : FastAssignment := ⟨[2, 1, 0], [((0, 2), (2, 3))]⟩

/-!  Helper lemmas about the lexicographic `Whack` order. -/

theorem Whack.blt_iff (a b : Whack) :
    a.blt b = true ↔
      a.timestamp < b.timestamp ∨
        (a.timestamp = b.timestamp ∧
          (a.noteIdx < b.noteIdx ∨ (a.noteIdx = b.noteIdx ∧ a.chordNoteIdx < b.chordNoteIdx))) := by
  simp [Whack.blt]

theorem Whack.blt_irrefl (a : Whack) : ¬a.blt a = true := by
  simp [Whack.blt_iff]

theorem Whack.blt_trans {a b c : Whack} (hab : a.blt b = true) (hbc : b.blt c = true) :
    a.blt c = true := by
  rw [Whack.blt_iff] at hab hbc ⊢
  rcases hab with h1 | ⟨e1, h1⟩ <;> rcases hbc with h2 | ⟨e2, h2⟩
  · exact Or.inl (h1.trans h2)
  · exact Or.inl (e2 ▸ h1)
  · exact Or.inl (e1 ▸ h2)
  · refine Or.inr ⟨e1.trans e2, ?_⟩
    rcases h1 with h1 | ⟨f1, h1⟩ <;> rcases h2 with h2 | ⟨f2, h2⟩
    · exact Or.inl (h1.trans h2)
    · exact Or.inl (f2 ▸ h1)
    · exact Or.inl (f1 ▸ h2)
    · exact Or.inr ⟨f1.trans f2, h1.trans h2⟩

theorem Whack.blt_asymm {a b : Whack} (hab : a.blt b = true) : ¬b.blt a = true := by
  intro hba
  exact Whack.blt_irrefl a (Whack.blt_trans hab hba)

theorem Whack.blt_trichotomy (a b : Whack) : a.blt b = true ∨ b.blt a = true ∨ a = b := by
  rcases a with ⟨ta, na, ca⟩
  rcases b with ⟨tb, nb, cb⟩
  rcases lt_trichotomy ta tb with h | h | h
  · exact Or.inl (by rw [Whack.blt_iff]; exact Or.inl h)
  · rcases Nat.lt_trichotomy na nb with h2 | h2 | h2
    · exact Or.inl (by rw [Whack.blt_iff]; exact Or.inr ⟨h, Or.inl h2⟩)
    · rcases Nat.lt_trichotomy ca cb with h3 | h3 | h3
      · exact Or.inl (by rw [Whack.blt_iff]; exact Or.inr ⟨h, Or.inr ⟨h2, h3⟩⟩)
      · subst h; subst h2; subst h3; exact Or.inr (Or.inr rfl)
      · exact Or.inr (Or.inl (by rw [Whack.blt_iff]; exact Or.inr ⟨h.symm, Or.inr ⟨h2.symm, h3⟩⟩))
    · exact Or.inr (Or.inl (by rw [Whack.blt_iff]; exact Or.inr ⟨h.symm, Or.inl h2⟩))
  · exact Or.inr (Or.inl (by rw [Whack.blt_iff]; exact Or.inl h))

theorem Whack.timestamp_le_of_not_blt {a b : Whack} (h : ¬a.blt b = true) :
    b.timestamp ≤ a.timestamp := by
  rw [Whack.blt_iff] at h
  push_neg at h
  exact h.1

/-!  Characterisation of `positionMinWhack`: the first position of a minimal key. -/

theorem positionMinWhackAux_spec {α : Type} (key : α → Whack) (d : α) :
    ∀ (ys : List α) (bestk : Whack) (besti i : Nat),
      (positionMinWhackAux key ys bestk besti i = besti ∧
        ∀ k, k < ys.length → ¬(key (ys.getD k d)).blt bestk = true) ∨
      (∃ k, k < ys.length ∧ positionMinWhackAux key ys bestk besti i = i + k ∧
        (key (ys.getD k d)).blt bestk = true ∧
        (∀ k', k' < ys.length → ¬(key (ys.getD k' d)).blt (key (ys.getD k d)) = true) ∧
        (∀ k', k' < k → (key (ys.getD k d)).blt (key (ys.getD k' d)) = true)) := by
  intro ys
  induction ys with
  | nil =>
    intro bestk besti i
    exact Or.inl ⟨rfl, fun k hk => absurd hk (by simp)⟩
  | cons y ys ih =>
    intro bestk besti i
    by_cases hb : (key y).blt bestk = true
    · have haux : positionMinWhackAux key (y :: ys) bestk besti i
          = positionMinWhackAux key ys (key y) i (i + 1) := by
        simp [positionMinWhackAux, hb]
      rcases ih (key y) i (i + 1) with ⟨heq, hmin⟩ | ⟨k, hk, heq, hlt, hmin, hfirst⟩
      · refine Or.inr ⟨0, by simp, ?_, ?_, ?_, ?_⟩
        · rw [haux, heq]; omega
        · simpa using hb
        · intro k' hk'
          match k' with
          | 0 => simpa using Whack.blt_irrefl (key y)
          | Nat.succ k' => simpa using hmin k' (by simpa using hk')
        · intro k' hk'
          exact absurd hk' (Nat.not_lt_zero k')
      · refine Or.inr ⟨k + 1, by simpa using hk, ?_, ?_, ?_, ?_⟩
        · rw [haux, heq]; omega
        · simpa using Whack.blt_trans hlt hb
        · intro k' hk'
          match k' with
          | 0 => simpa using Whack.blt_asymm hlt
          | Nat.succ k' => simpa using hmin k' (by simpa using hk')
        · intro k' hk'
          match k' with
          | 0 => simpa using hlt
          | Nat.succ k' => simpa using hfirst k' (by omega)
    · have haux : positionMinWhackAux key (y :: ys) bestk besti i
          = positionMinWhackAux key ys bestk besti (i + 1) := by
        simp [positionMinWhackAux, hb]
      rcases ih bestk besti (i + 1) with ⟨heq, hmin⟩ | ⟨k, hk, heq, hlt, hmin, hfirst⟩
      · refine Or.inl ⟨haux.trans heq, ?_⟩
        intro k' hk'
        match k' with
        | 0 => simpa using hb
        | Nat.succ k' => simpa using hmin k' (by simpa using hk')
      · refine Or.inr ⟨k + 1, by simpa using hk, ?_, ?_, ?_, ?_⟩
        · rw [haux, heq]; omega
        · simpa using hlt
        · intro k' hk'
          match k' with
          | 0 =>
            simp only [List.getD_cons_zero]
            intro hcon
            exact hb (Whack.blt_trans hcon hlt)
          | Nat.succ k' => simpa using hmin k' (by simpa using hk')
        · intro k' hk'
          match k' with
          | 0 =>
            simp only [List.getD_cons_zero]
            rcases Whack.blt_trichotomy (key (ys.getD k d)) (key y) with h | h | h
            · exact h
            · exact absurd (Whack.blt_trans h hlt) hb
            · rw [h] at hlt; exact absurd hlt hb
          | Nat.succ k' => simpa using hfirst k' (by omega)

theorem positionMinWhack_spec {α : Type} (key : α → Whack) (d : α) (x : α) (xs : List α) :
    ∃ j, positionMinWhack key (x :: xs) = some j ∧ j < (x :: xs).length ∧
      (∀ i, i < (x :: xs).length →
        ¬(key ((x :: xs).getD i d)).blt (key ((x :: xs).getD j d)) = true) ∧
      (∀ i, i < j → (key ((x :: xs).getD j d)).blt (key ((x :: xs).getD i d)) = true) := by
  rcases positionMinWhackAux_spec key d xs (key x) 0 1 with ⟨heq, hmin⟩ |
    ⟨k, hk, heq, hlt, hmin, hfirst⟩
  · refine ⟨0, ?_, by simp, ?_, ?_⟩
    · simp [positionMinWhack, heq]
    · intro i hi
      match i with
      | 0 => simpa using Whack.blt_irrefl (key x)
      | Nat.succ i => simpa using hmin i (by simpa using hi)
    · intro i hi
      exact absurd hi (Nat.not_lt_zero i)
  · refine ⟨k + 1, ?_, by simpa using hk, ?_, ?_⟩
    · simp only [positionMinWhack, heq]
      exact congrArg some (by omega)
    · intro i hi
      match i with
      | 0 => simpa using Whack.blt_asymm hlt
      | Nat.succ i => simpa using hmin i (by simpa using hi)
    · intro i hi
      match i with
      | 0 => simpa using hlt
      | Nat.succ i => simpa using hfirst i (by omega)

/-!  Claim theorems. -/

/-- C9: the Hand Cost Model returns cost 0 for a hand holding zero instruments or
exactly one instrument, for every Schedule. -/
theorem c9_degenerate_hand_cost :
    (∀ music : MusicXmlScore, score_for_hand [] music = 0) ∧
    ∀ (music : MusicXmlScore) (n : Note), score_for_hand [n] music = 0 :=
  ⟨fun _ => rfl, fun _ _ => rfl⟩

/-- C7: every required switch subtracts `1 / time_diff` from the score, where
`time_diff` is the gap to the previous event clamped below at 0.01 s; in particular
two instruments 0.001 s apart in one hand contribute exactly −100 for that switch
(and a 0.5 s gap, above the floor, contributes the unclamped −2). -/
theorem c7_clamped_swap_cost :
    (∀ (fuel : Nat) (iters : List (List Whack)) (lastIdx : Nat) (lastTime : Timestamp)
        (sc : ℚ) (nextIdx : Nat) (bestTime : Timestamp),
        findNext iters = some (nextIdx, bestTime) → lastIdx ≠ nextIdx →
        mergeLoop (fuel + 1) iters lastIdx lastTime sc =
          mergeLoop fuel (popAt iters nextIdx) nextIdx bestTime
            (sc - 1 / (if bestTime - lastTime < 1 / 100 then 1 / 100 else bestTime - lastTime))) ∧
    score_for_hand [0, 1] musicClose = -100 ∧
    score_for_hand [0, 1] musicHalf = -2 := by
  refine ⟨?_, ?_, ?_⟩
  · intro fuel iters lastIdx lastTime sc nextIdx bestTime hfind hne
    simp only [mergeLoop, hfind, if_pos hne]
  · norm_num [score_for_hand, musicClose, initialHeldIdx, positionMinWhack,
      positionMinWhackAux, findNext, findNextAux, mergeLoop, popAt, Whack.blt, List.headI]
  · norm_num [score_for_hand, musicHalf, initialHeldIdx, positionMinWhack,
      positionMinWhackAux, findNext, findNextAux, mergeLoop, popAt, Whack.blt, List.headI]

/-- Witness for C7: the switch-cost equation applied at a concrete state (one
remaining iterator holding a single hit at 1 s, last event at 0 s on iterator 1). -/
theorem c7_clamped_swap_cost_witness :
    findNext [[(⟨1, 0, 0⟩ : Whack)]] = some (0, 1) ∧ (1 : Nat) ≠ 0 ∧
    mergeLoop 1 [[(⟨1, 0, 0⟩ : Whack)]] 1 0 0 =
      mergeLoop 0 (popAt [[(⟨1, 0, 0⟩ : Whack)]] 0) 0 1
        (0 - 1 / (if (1 : Timestamp) - 0 < 1 / 100 then 1 / 100 else 1 - 0)) :=
  ⟨by decide, by decide,
    c7_clamped_swap_cost.1 0 [[(⟨1, 0, 0⟩ : Whack)]] 1 0 0 0 1 (by decide) (by decide)⟩

/-- C4 (code bug): on the empty Schedule the initial random Assignment is indeed
degenerate — both hands empty, score 0 — but the search does crash: `make_swap`
calls `gen_range(0..0)` on the empty whacker list, which panics in `rand` (modelled
as `none`), so `Assignment::new` never returns a value. -/
theorem c4_empty_schedule_crash :
    Assignment.new rngId musicEmpty 1 () = none ∧
    (FastAssignment.random rngId musicEmpty 1 ()).1.hands = [[], []] ∧
    (FastAssignment.random rngId musicEmpty 1 ()).1.score musicEmpty = 0 ∧
    FastAssignment.make_swap rngId (FastAssignment.random rngId musicEmpty 1 ()).1 () = none := by
  refine ⟨by decide, by decide, ?_, by decide⟩
  norm_num [FastAssignment.random, FastAssignment.score, rngId, musicEmpty, buildHands,
    buildHandsAux, pairUp, slice, score_for_player, score_for_hand]

/-- C6 (counterexample): with two instruments whose first hits coincide at time 0
and the hand enumerating them as `[1, 0]`, the spec's tie rule (first in hand order)
picks position 0, but the code picks position 1 — the instrument whose first `Whack`
has the smaller XML `note_idx` — and the resulting hand cost is −200 (two forced
switches) instead of the −100 the spec's rule would produce. -/
theorem c6_counterexample :
    specInitialHeldIdx musicTie [1, 0] = 0 ∧ initialHeldIdx musicTie [1, 0] = 1 ∧
    score_for_hand [1, 0] musicTie = -200 ∧ score_for_hand [0, 1] musicTie = -100 := by
  refine ⟨by decide, by decide, ?_, ?_⟩
  · norm_num [score_for_hand, musicTie, whacksTie, initialHeldIdx, positionMinWhack,
      positionMinWhackAux, findNext, findNextAux, mergeLoop, popAt, Whack.blt, List.headI]
  · norm_num [score_for_hand, musicTie, whacksTie, initialHeldIdx, positionMinWhack,
      positionMinWhackAux, findNext, findNextAux, mergeLoop, popAt, Whack.blt, List.headI]

/-- C6 (amended): the initially held instrument is the one whose first `Whack` is
minimal under the full derived `Whack` order — earliest timestamp first, ties broken
by the XML `note_idx` (then chord index), not by hand enumeration order; the hand
position chosen is the first one attaining that minimal key. -/
theorem c6_initial_hold_amended (music : MusicXmlScore) (hand : List Note)
    (hne : hand ≠ []) :
    ∃ j, initialHeldIdx music hand = j ∧ j < hand.length ∧
      (∀ i, i < hand.length →
        ((music.whacks (hand.getD j 0)).headI).timestamp ≤
          ((music.whacks (hand.getD i 0)).headI).timestamp) ∧
      (∀ i, i < hand.length →
        ¬((music.whacks (hand.getD i 0)).headI).blt
          ((music.whacks (hand.getD j 0)).headI) = true) ∧
      (∀ i, i < j →
        ((music.whacks (hand.getD j 0)).headI).blt
          ((music.whacks (hand.getD i 0)).headI) = true) := by
  rcases List.exists_cons_of_ne_nil hne with ⟨x, xs, rfl⟩
  rcases positionMinWhack_spec (fun n => (music.whacks n).headI) 0 x xs with
    ⟨j, hsome, hjlt, hmin, hfirst⟩
  refine ⟨j, ?_, hjlt, ?_, hmin, hfirst⟩
  · simp [initialHeldIdx, hsome]
  · intro i hi
    exact Whack.timestamp_le_of_not_blt (hmin i hi)

/-- Witness for C6's amended theorem: instantiated at the coinciding-onset schedule
with hand `[1, 0]`. -/
theorem c6_initial_hold_amended_witness :
    ([1, 0] : List Note) ≠ [] ∧
    ∃ j, initialHeldIdx musicTie [1, 0] = j ∧ j < ([1, 0] : List Note).length ∧
      (∀ i, i < ([1, 0] : List Note).length →
        ((musicTie.whacks (([1, 0] : List Note).getD j 0)).headI).timestamp ≤
          ((musicTie.whacks (([1, 0] : List Note).getD i 0)).headI).timestamp) ∧
      (∀ i, i < ([1, 0] : List Note).length →
        ¬((musicTie.whacks (([1, 0] : List Note).getD i 0)).headI).blt
          ((musicTie.whacks (([1, 0] : List Note).getD j 0)).headI) = true) ∧
      (∀ i, i < j →
        ((musicTie.whacks (([1, 0] : List Note).getD j 0)).headI).blt
          ((musicTie.whacks (([1, 0] : List Note).getD i 0)).headI) = true) :=
  ⟨by decide, c6_initial_hold_amended musicTie [1, 0] (by decide)⟩

/-- C3: within one restart's inner loop, the retained assignment's score never
decreases across iterations, and a proposed mutated assignment replaces the current
one exactly when its score is strictly greater — otherwise the current assignment is
kept unchanged (with the generator state advanced). -/
theorem c3_monotonic_improvement (rng : RngOps σ) (music : MusicXmlScore) :
    (∀ (a : FastAssignment) (s : σ) (next : FastAssignment) (s₁ : σ),
        FastAssignment.make_swap rng a s = some (next, s₁) →
        gradientStep rng music a s =
          some (if next.score music > a.score music then (next, s₁) else (a, s₁))) ∧
    (∀ (n : Nat) (a : FastAssignment) (s : σ) (b : FastAssignment) (t : σ),
        gradientLoop rng music n a s = some (b, t) → a.score music ≤ b.score music) := by
  have hstep : ∀ (a : FastAssignment) (s : σ) (p : FastAssignment × σ),
      gradientStep rng music a s = some p → a.score music ≤ p.1.score music := by
    intro a s p h
    simp only [gradientStep] at h
    cases hms : FastAssignment.make_swap rng a s with
    | none => rw [hms] at h; simp at h
    | some q =>
      rw [hms] at h
      simp only [Option.map_some'] at h
      by_cases hc : q.1.score music > a.score music
      · rw [if_pos hc] at h
        injection h with h
        exact le_of_lt (h ▸ hc)
      · rw [if_neg hc] at h
        injection h with h
        rw [← h]
  constructor
  · intro a s next s₁ h
    simp only [gradientStep, h, Option.map_some']
  · intro n
    induction n with
    | zero =>
      intro a s b t h
      simp only [gradientLoop, Option.some.injEq, Prod.mk.injEq] at h
      rw [h.1]
    | succ n ih =>
      intro a s b t h
      simp only [gradientLoop] at h
      cases hst : gradientStep rng music a s with
      | none => rw [hst] at h; simp at h
      | some p =>
        rw [hst] at h
        simp only [Option.some_bind] at h
        exact (hstep a s p hst).trans (ih p.1 p.2 b t h)

/-- Witness for C3: instantiated at the one-instrument schedule under the trivial
generator, where the swap step is a no-op, with a zero-length loop for the
monotonicity part. -/
theorem c3_monotonic_improvement_witness :
    FastAssignment.make_swap rngId aOne () = some (aOne, ()) ∧
    gradientStep rngId musicOne aOne () =
      some (if aOne.score musicOne > aOne.score musicOne then (aOne, ()) else (aOne, ())) ∧
    gradientLoop rngId musicOne 0 aOne () = some (aOne, ()) ∧
    aOne.score musicOne ≤ aOne.score musicOne :=
  ⟨by decide, (c3_monotonic_improvement rngId musicOne).1 aOne () aOne () (by decide),
   by decide, (c3_monotonic_improvement rngId musicOne).2 0 aOne () aOne () (by decide)⟩

/-!  Congruence lemmas: the search depends on the Schedule only through its `whacks`
map and the sorted key list, never through the hash map's iteration order. -/

theorem score_for_hand_congr {m₁ m₂ : MusicXmlScore} (hw : m₁.whacks = m₂.whacks)
    (hand : List Note) : score_for_hand hand m₁ = score_for_hand hand m₂ := by
  simp only [score_for_hand, initialHeldIdx]
  rw [hw]

theorem score_for_player_congr {m₁ m₂ : MusicXmlScore} (hw : m₁.whacks = m₂.whacks)
    (l r : List Note) : score_for_player l r m₁ = score_for_player l r m₂ := by
  simp only [score_for_player, score_for_hand_congr hw]

theorem FastAssignment.score_congr {m₁ m₂ : MusicXmlScore} (hw : m₁.whacks = m₂.whacks)
    (a : FastAssignment) : a.score m₁ = a.score m₂ := by
  simp only [FastAssignment.score]
  congr 1
  funext sc p
  rw [score_for_player_congr hw]

theorem gradientStep_congr {m₁ m₂ : MusicXmlScore} (hw : m₁.whacks = m₂.whacks)
    (rng : RngOps σ) (a : FastAssignment) (s : σ) :
    gradientStep rng m₁ a s = gradientStep rng m₂ a s := by
  simp only [gradientStep]
  congr 1
  funext n
  rw [FastAssignment.score_congr hw, FastAssignment.score_congr hw]

theorem gradientLoop_congr {m₁ m₂ : MusicXmlScore} (hw : m₁.whacks = m₂.whacks)
    (rng : RngOps σ) : ∀ (n : Nat) (a : FastAssignment) (s : σ),
    gradientLoop rng m₁ n a s = gradientLoop rng m₂ n a s
  | 0, _, _ => rfl
  | n + 1, a, s => by
    simp only [gradientLoop]
    rw [gradientStep_congr hw]
    congr 1
    funext p
    exact gradientLoop_congr hw rng n p.1 p.2

theorem random_congr {m₁ m₂ : MusicXmlScore}
    (hk : List.insertionSort (· ≤ ·) m₁.keys = List.insertionSort (· ≤ ·) m₂.keys)
    (rng : RngOps σ) (numPlayers : Nat) (s : σ) :
    FastAssignment.random rng m₁ numPlayers s = FastAssignment.random rng m₂ numPlayers s := by
  simp only [FastAssignment.random, hk]

theorem gradient_ascent_congr {m₁ m₂ : MusicXmlScore}
    (hk : List.insertionSort (· ≤ ·) m₁.keys = List.insertionSort (· ≤ ·) m₂.keys)
    (hw : m₁.whacks = m₂.whacks) (rng : RngOps σ) (numPlayers : Nat) (s : σ) :
    gradient_ascent rng m₁ numPlayers s = gradient_ascent rng m₂ numPlayers s := by
  simp only [gradient_ascent]
  rw [random_congr hk, gradientLoop_congr hw]

theorem runRestarts_congr {m₁ m₂ : MusicXmlScore}
    (hk : List.insertionSort (· ≤ ·) m₁.keys = List.insertionSort (· ≤ ·) m₂.keys)
    (hw : m₁.whacks = m₂.whacks) (rng : RngOps σ) (numPlayers : Nat) :
    ∀ (n : Nat) (s : σ), runRestarts rng m₁ numPlayers n s = runRestarts rng m₂ numPlayers n s
  | 0, _ => rfl
  | n + 1, s => by
    simp only [runRestarts]
    rw [gradient_ascent_congr hk hw]
    congr 1
    funext p
    rw [runRestarts_congr hk hw rng numPlayers n p.2]

theorem maxByScore_congr {m₁ m₂ : MusicXmlScore} (hw : m₁.whacks = m₂.whacks)
    (l : List FastAssignment) : maxByScore m₁ l = maxByScore m₂ l := by
  cases l with
  | nil => rfl
  | cons x xs =>
    simp only [maxByScore]
    have hf : (fun (best a : FastAssignment) => if a.score m₁ < best.score m₁ then best else a)
        = fun best a => if a.score m₂ < best.score m₂ then best else a := by
      funext best a
      rw [FastAssignment.score_congr hw, FastAssignment.score_congr hw]
    rw [hf]

theorem from_search_congr {m₁ m₂ : MusicXmlScore}
    (hk : List.insertionSort (· ≤ ·) m₁.keys = List.insertionSort (· ≤ ·) m₂.keys)
    (hw : m₁.whacks = m₂.whacks) (rng : RngOps σ) (numPlayers : Nat) (s : σ) :
    FastAssignment.from_search rng m₁ numPlayers s =
      FastAssignment.from_search rng m₂ numPlayers s := by
  simp only [FastAssignment.from_search]
  rw [runRestarts_congr hk hw]
  congr 1
  funext p
  rw [maxByScore_congr hw]

/-- C1: determinism — two runs with the same Schedule contents (the same key set and
the same per-instrument whack lists, in whatever iteration order the hash map
yields), the same player count, and the same generator and seed state, produce the
identical Assignment: the same partition into hands, the same player ordering, and
the same best Score. -/
theorem c1_determinism (rng : RngOps σ) (numPlayers : Nat) (s : σ)
    (m₁ m₂ : MusicXmlScore) (hk : m₁.keys.Perm m₂.keys) (hw : m₁.whacks = m₂.whacks) :
    Assignment.new rng m₁ numPlayers s = Assignment.new rng m₂ numPlayers s := by
  have hsort : List.insertionSort (· ≤ ·) m₁.keys = List.insertionSort (· ≤ ·) m₂.keys := by
    exact List.eq_of_perm_of_sorted
      ((List.perm_insertionSort _ _).trans (hk.trans (List.perm_insertionSort _ _).symm))
      (List.sorted_insertionSort _ _) (List.sorted_insertionSort _ _)
  simp only [Assignment.new]
  rw [from_search_congr hsort hw]
  congr 1
  funext fa
  rw [FastAssignment.score_congr hw]

/-- Witness for C1: the coinciding-onset schedule with its hash map keys iterated in
the two possible orders gives byte-identical output. -/
theorem c1_determinism_witness :
    musicTie.keys.Perm musicTieRev.keys ∧ musicTie.whacks = musicTieRev.whacks ∧
    Assignment.new rngId musicTie 1 () = Assignment.new rngId musicTieRev 1 () :=
  ⟨by decide, rfl, c1_determinism rngId 1 () musicTie musicTieRev (by decide) rfl⟩

/-!  List-level helper lemmas for the partition and frame invariants. -/

theorem consSetPerm {α : Type} : ∀ (t : List α) (k : Nat) (b x : α), t[k]? = some b →
    (b :: t.set k x).Perm (x :: t)
  | [], k, _, _, h => by simp at h
  | c :: t2, 0, b, x, h => by
    obtain rfl : c = b := by simpa using h
    exact List.Perm.swap _ _ _
  | c :: t2, k + 1, b, x, h => by
    have ih := consSetPerm t2 k b x (by simpa using h)
    simp only [List.set_cons_succ]
    exact (List.Perm.swap _ _ _).trans ((ih.cons c).trans (List.Perm.swap _ _ _))

theorem listSwap_perm {α : Type} : ∀ (l : List α) (i j : Nat), (listSwap l i j).Perm l
  | [], i, j => by simp [listSwap]
  | x :: t, 0, 0 => by
    simp only [listSwap, List.getElem?_cons_zero, List.set_cons_zero]
    exact List.Perm.refl _
  | x :: t, 0, j + 1 => by
    simp only [listSwap, List.getElem?_cons_zero, List.getElem?_cons_succ]
    cases ht : t[j]? with
    | none => exact List.Perm.refl _
    | some b =>
      simp only [List.set_cons_zero, List.set_cons_succ]
      exact consSetPerm t j b x ht
  | x :: t, i + 1, 0 => by
    simp only [listSwap, List.getElem?_cons_zero, List.getElem?_cons_succ]
    cases ht : t[i]? with
    | none => exact List.Perm.refl _
    | some a =>
      simp only [List.set_cons_zero, List.set_cons_succ]
      exact consSetPerm t i a x ht
  | x :: t, i + 1, j + 1 => by
    simp only [listSwap, List.getElem?_cons_succ]
    cases hti : t[i]? with
    | none => exact List.Perm.refl _
    | some a =>
      cases htj : t[j]? with
      | none => exact List.Perm.refl _
      | some b =>
        simp only [List.set_cons_succ]
        have hperm := listSwap_perm t i j
        rw [show listSwap t i j = (t.set i b).set j a by simp [listSwap, hti, htj]] at hperm
        exact hperm.cons x

theorem listSwap_length (l : List α) (i j : Nat) : (listSwap l i j).length = l.length := by
  unfold listSwap
  cases l[i]? <;> cases l[j]? <;> simp

theorem listSwap_getElem?_ne (l : List α) (i j k : Nat) (hki : k ≠ i) (hkj : k ≠ j) :
    (listSwap l i j)[k]? = l[k]? := by
  unfold listSwap
  cases l[i]? <;> cases l[j]? <;>
    simp [List.getElem?_set_ne (Ne.symm hkj), List.getElem?_set_ne (Ne.symm hki)]

theorem pairUp_flatMap (g : α → β) : ∀ (hs : List α), hs.length % 2 = 0 →
    (pairUp hs).flatMap (fun p => [g p.1, g p.2]) = hs.map g
  | [], _ => rfl
  | [_], h => by simp at h
  | a :: b :: t, h => by
    have ht : t.length % 2 = 0 := by
      simp only [List.length_cons] at h
      omega
    simp [pairUp, pairUp_flatMap g t ht]

theorem pairUp_flatMap_id : ∀ (hs : List α), hs.length % 2 = 0 →
    (pairUp hs).flatMap (fun p => [p.1, p.2]) = hs
  | [], _ => rfl
  | [_], h => by simp at h
  | a :: b :: t, h => by
    have ht : t.length % 2 = 0 := by
      simp only [List.length_cons] at h
      omega
    simp [pairUp, pairUp_flatMap_id t ht]

theorem hands_eq_map (a : FastAssignment) :
    a.hands = a.flatRanges.map (slice a.whackers) := by
  simp only [FastAssignment.hands, FastAssignment.flatRanges, List.map_flatMap,
    List.map_cons, List.map_nil]

theorem flatMap_pairs_even (ps : List ((Nat × Nat) × (Nat × Nat))) :
    (ps.flatMap (fun p => [p.1, p.2])).length % 2 = 0 := by
  induction ps with
  | nil => rfl
  | cons p t ih =>
    simp only [List.flatMap_cons, List.length_append, List.length_cons, List.length_nil] at ih ⊢
    omega

theorem rangesConsecutive_le : ∀ (s : Nat) (rs : List (Nat × Nat)) (e : Nat),
    rangesConsecutive s rs e → s ≤ e
  | _, [], _, h => le_of_eq h
  | _, _ :: rest, e, h => le_trans h.2.1 (rangesConsecutive_le _ rest e h.2.2)

theorem rangesConsecutive_bounds : ∀ (s : Nat) (rs : List (Nat × Nat)) (e : Nat),
    rangesConsecutive s rs e → ∀ r ∈ rs, s ≤ r.1 ∧ r.1 ≤ r.2 ∧ r.2 ≤ e
  | _, [], _, _ => by simp
  | s, r :: rest, e, h => by
    intro q hq
    rcases List.mem_cons.mp hq with rfl | hq
    · exact ⟨le_of_eq h.1.symm, h.1 ▸ h.2.1, rangesConsecutive_le _ rest e h.2.2⟩
    · have hrec := rangesConsecutive_bounds r.2 rest e h.2.2 q hq
      exact ⟨le_trans (h.1 ▸ h.2.1) hrec.1, hrec.2.1, hrec.2.2⟩

theorem rangesConsecutive_flatten_slices {α : Type} (l : List α) :
    ∀ (s : Nat) (rs : List (Nat × Nat)) (e : Nat), rangesConsecutive s rs e →
      (rs.map (slice l)).flatten = (l.drop s).take (e - s)
  | s, [], e, h => by
    have h2 : s = e := h
    subst h2
    simp
  | s, r :: rest, e, h => by
    obtain ⟨h1, h2, h3⟩ := h
    have ih := rangesConsecutive_flatten_slices l r.2 rest e h3
    have he : r.2 ≤ e := rangesConsecutive_le _ rest e h3
    simp only [List.map_cons, List.flatten_cons, ih, slice, h1]
    rw [show l.drop r.2 = (l.drop s).drop (r.2 - s) by rw [List.drop_drop]; congr 1; omega]
    rw [show e - s = (r.2 - s) + (e - r.2) by omega, List.take_add]

theorem sortRange_perm (l : List Note) (r : Nat × Nat) (h : r.1 ≤ r.2) :
    (sortRange l r).Perm l := by
  have hsplit : slice l r ++ l.drop r.2 = l.drop r.1 := by
    rw [show l.drop r.2 = (l.drop r.1).drop (r.2 - r.1) by rw [List.drop_drop]; congr 1; omega]
    exact List.take_append_drop _ _
  have heq : sortRange l r
      = l.take r.1 ++ (List.insertionSort (· ≤ ·) (slice l r) ++ l.drop r.2) := by
    simp [sortRange, List.append_assoc]
  rw [heq]
  conv_rhs => rw [← List.take_append_drop r.1 l, ← hsplit]
  exact List.Perm.append_left _ ((List.perm_insertionSort _ _).append_right _)

theorem foldl_sortRange_perm : ∀ (rs : List (Nat × Nat)) (l : List Note),
    (∀ r ∈ rs, r.1 ≤ r.2) → (rs.foldl sortRange l).Perm l
  | [], l, _ => List.Perm.refl l
  | r :: rest, l, h => by
    simp only [List.foldl_cons]
    exact (foldl_sortRange_perm rest (sortRange l r)
      (fun q hq => h q (List.mem_cons_of_mem r hq))).trans
      (sortRange_perm l r (h r (List.mem_cons_self r rest)))

theorem buildHandsAux_length (base extra : Nat) :
    ∀ (count i alloc : Nat), (buildHandsAux base extra count i alloc).length = count
  | 0, _, _ => rfl
  | count + 1, i, alloc => by
    simp only [buildHandsAux, List.length_cons, buildHandsAux_length base extra count]

theorem buildHandsAux_consecutive (base extra : Nat) :
    ∀ (count i alloc : Nat),
      rangesConsecutive alloc (buildHandsAux base extra count i alloc)
        (alloc + (count * base + (min (i + count) extra - min i extra)))
  | 0, i, alloc => by
    show alloc = alloc + (0 * base + (min (i + 0) extra - min i extra))
    omega
  | count + 1, i, alloc => by
    refine ⟨rfl, Nat.le_add_right _ _, ?_⟩
    have ih := buildHandsAux_consecutive base extra count (i + 1)
      (alloc + (base + if i < extra then 1 else 0))
    have hstop : alloc + (base + if i < extra then 1 else 0)
        + (count * base + (min (i + 1 + count) extra - min (i + 1) extra))
        = alloc + ((count + 1) * base + (min (i + (count + 1)) extra - min i extra)) := by
      by_cases hie : i < extra <;> simp only [hie, if_true, if_false, add_mul, one_mul] <;>
        omega
    rw [hstop] at ih
    exact ih

theorem buildHands_consecutive_total (n h : Nat) (hh : 0 < h) :
    rangesConsecutive 0 (buildHands (n / h) (n % h) h) n := by
  have hc := buildHandsAux_consecutive (n / h) (n % h) h 0 0
  have hd := Nat.div_add_mod n h
  have hmod : n % h < h := Nat.mod_lt _ hh
  have hstop : 0 + (h * (n / h) + (min (0 + h) (n % h) - min 0 (n % h))) = n := by omega
  rw [hstop] at hc
  exact hc

theorem buildHandsAux_sizes (base extra : Nat) :
    ∀ (count i alloc : Nat),
      (buildHandsAux base extra count i alloc).map (fun r => r.2 - r.1) =
        (List.range count).map (fun j => base + if i + j < extra then 1 else 0)
  | 0, _, _ => rfl
  | count + 1, i, alloc => by
    simp only [buildHandsAux, List.map_cons]
    rw [buildHandsAux_sizes base extra count (i + 1) _]
    rw [List.range_succ_eq_map, List.map_cons, List.map_map]
    refine congrArg₂ List.cons (by simp only [Nat.add_zero]; omega) ?_
    apply List.map_congr_left
    intro j _
    simp only [Function.comp_apply]
    congr 1
    exact if_congr (by omega) rfl rfl

/-!  The search invariant along the whole pipeline. -/

theorem random_InvR (rng : RngOps σ) (hsh : ∀ (l : List Note) (s : σ), ((rng.shuffle l s).1).Perm l)
    (music : MusicXmlScore) (numPlayers : Nat) (s : σ) :
    InvR music numPlayers (FastAssignment.random rng music numPlayers s).1 := by
  have hperm : ((rng.shuffle (List.insertionSort (· ≤ ·) music.keys) s).1).Perm music.keys :=
    (hsh _ _).trans (List.perm_insertionSort _ _)
  have hlen : (rng.shuffle (List.insertionSort (· ≤ ·) music.keys) s).1.length
      = music.keys.length := hperm.length_eq
  constructor
  · exact hperm
  · show FastAssignment.flatRanges _ = _
    simp only [FastAssignment.random, FastAssignment.flatRanges]
    rw [pairUp_flatMap_id]
    · rw [hlen]
    · simp only [buildHands, buildHandsAux_length]
      omega

theorem make_swap_InvR {rng : RngOps σ} {music : MusicXmlScore} {numPlayers : Nat}
    {a : FastAssignment} {s : σ} {q : FastAssignment × σ}
    (h : FastAssignment.make_swap rng a s = some q) (hInv : InvR music numPlayers a) :
    InvR music numPlayers q.1 ∧ q.1.players = a.players := by
  by_cases h0 : a.whackers.length = 0
  · simp only [FastAssignment.make_swap, if_pos h0] at h
    cases h
  · simp only [FastAssignment.make_swap, if_neg h0] at h
    rw [Option.some.injEq] at h
    have hfst := congrArg Prod.fst h
    refine ⟨⟨?_, ?_⟩, ?_⟩
    · rw [← hfst]
      exact (listSwap_perm _ _ _).trans hInv.1
    · rw [← hfst]
      exact hInv.2
    · rw [← hfst]

theorem gradientStep_InvR {rng : RngOps σ} {music : MusicXmlScore} {numPlayers : Nat}
    {a : FastAssignment} {s : σ} {p : FastAssignment × σ}
    (h : gradientStep rng music a s = some p) (hInv : InvR music numPlayers a) :
    InvR music numPlayers p.1 := by
  simp only [gradientStep] at h
  cases hms : FastAssignment.make_swap rng a s with
  | none => rw [hms] at h; cases h
  | some q =>
    rw [hms] at h
    simp only [Option.map_some'] at h
    have hq := (make_swap_InvR hms hInv).1
    by_cases hc : q.1.score music > a.score music
    · rw [if_pos hc] at h
      rw [Option.some.injEq] at h
      rw [← h]
      exact hq
    · rw [if_neg hc] at h
      rw [Option.some.injEq] at h
      rw [← h]
      exact hInv

theorem gradientLoop_InvR {rng : RngOps σ} {music : MusicXmlScore} {numPlayers : Nat} :
    ∀ (n : Nat) (a : FastAssignment) (s : σ) (p : FastAssignment × σ),
      gradientLoop rng music n a s = some p → InvR music numPlayers a →
      InvR music numPlayers p.1
  | 0, a, _, p, h, hInv => by
    simp only [gradientLoop, Option.some.injEq] at h
    rw [← h]
    exact hInv
  | n + 1, a, s, p, h, hInv => by
    simp only [gradientLoop] at h
    cases hst : gradientStep rng music a s with
    | none => rw [hst] at h; cases h
    | some q =>
      rw [hst] at h
      simp only [Option.some_bind] at h
      exact gradientLoop_InvR n q.1 q.2 p h (gradientStep_InvR hst hInv)

theorem gradient_ascent_InvR {rng : RngOps σ}
    (hsh : ∀ (l : List Note) (s : σ), ((rng.shuffle l s).1).Perm l)
    {music : MusicXmlScore} {numPlayers : Nat} {s : σ} {p : FastAssignment × σ}
    (h : gradient_ascent rng music numPlayers s = some p) :
    InvR music numPlayers p.1 := by
  unfold gradient_ascent at h
  exact gradientLoop_InvR 1000 _ _ p h (random_InvR rng hsh music numPlayers s)

theorem runRestarts_InvR {rng : RngOps σ}
    (hsh : ∀ (l : List Note) (s : σ), ((rng.shuffle l s).1).Perm l)
    {music : MusicXmlScore} {numPlayers : Nat} :
    ∀ (n : Nat) (s : σ) (q : List FastAssignment × σ),
      runRestarts rng music numPlayers n s = some q → ∀ x ∈ q.1, InvR music numPlayers x
  | 0, _, q, h => by
    simp only [runRestarts, Option.some.injEq] at h
    rw [← h]
    simp
  | n + 1, s, q, h => by
    simp only [runRestarts] at h
    cases hga : gradient_ascent rng music numPlayers s with
    | none => rw [hga] at h; cases h
    | some p =>
      rw [hga] at h
      simp only [Option.some_bind] at h
      cases hrr : runRestarts rng music numPlayers n p.2 with
      | none => rw [hrr] at h; cases h
      | some q2 =>
        rw [hrr] at h
        simp only [Option.map_some', Option.some.injEq] at h
        intro x hx
        rw [← h] at hx
        rcases List.mem_cons.mp hx with rfl | hx2
        · exact gradient_ascent_InvR hsh hga
        · exact runRestarts_InvR hsh n p.2 q2 hrr x hx2

theorem foldl_choice_mem {α : Type} {f : α → α → α} (hf : ∀ b a, f b a = b ∨ f b a = a) :
    ∀ (xs : List α) (x : α), xs.foldl f x ∈ x :: xs
  | [], x => List.mem_cons_self x []
  | a :: t, x => by
    simp only [List.foldl_cons]
    have ih := foldl_choice_mem hf t (f x a)
    rcases List.mem_cons.mp ih with heq | hmem
    · rw [heq]
      rcases hf x a with h2 | h2 <;> rw [h2]
      · exact List.mem_cons_self _ _
      · exact List.mem_cons_of_mem _ (List.mem_cons_self _ _)
    · exact List.mem_cons_of_mem _ (List.mem_cons_of_mem _ hmem)

theorem maxByScore_mem {music : MusicXmlScore} {l : List FastAssignment} {b : FastAssignment}
    (h : maxByScore music l = some b) : b ∈ l := by
  cases l with
  | nil => cases h
  | cons x xs =>
    simp only [maxByScore, Option.some.injEq] at h
    rw [← h]
    refine foldl_choice_mem (fun c a => ?_) xs x
    by_cases hc : a.score music < c.score music
    · exact Or.inl (if_pos hc)
    · exact Or.inr (if_neg hc)

theorem InvR_hands_flatten {music : MusicXmlScore} {numPlayers : Nat} (hp : 0 < numPlayers)
    {a : FastAssignment} (hInv : InvR music numPlayers a) :
    (a.hands.flatten).Perm music.keys := by
  obtain ⟨hPerm, hRanges⟩ := hInv
  have hcons : rangesConsecutive 0 a.flatRanges a.whackers.length := by
    rw [hRanges, hPerm.length_eq]
    exact buildHands_consecutive_total _ _ (by omega)
  rw [hands_eq_map,
    rangesConsecutive_flatten_slices a.whackers 0 a.flatRanges a.whackers.length hcons,
    List.drop_zero, Nat.sub_zero, List.take_length]
  exact hPerm

theorem presentStep_spec {music : MusicXmlScore} {numPlayers : Nat} (hp : 0 < numPlayers)
    {a : FastAssignment} (hInv : InvR music numPlayers a) :
    ((presentStep a).hands.flatten).Perm music.keys ∧
    ∀ hand ∈ (presentStep a).hands,
      hand.length = music.keys.length / (numPlayers * 2) ∨
      hand.length = music.keys.length / (numPlayers * 2) + 1 := by
  obtain ⟨hPerm, hRanges⟩ := hInv
  have hh : 0 < numPlayers * 2 := by omega
  have hwlen : a.whackers.length = music.keys.length := hPerm.length_eq
  have hcons : rangesConsecutive 0 a.flatRanges a.whackers.length := by
    rw [hRanges, hwlen]
    exact buildHands_consecutive_total _ _ hh
  have hbounds := rangesConsecutive_bounds 0 a.flatRanges a.whackers.length hcons
  have hWperm : (a.flatRanges.foldl sortRange a.whackers).Perm a.whackers :=
    foldl_sortRange_perm a.flatRanges a.whackers (fun r hr => (hbounds r hr).2.1)
  have hWlen : (a.flatRanges.foldl sortRange a.whackers).length = a.whackers.length :=
    hWperm.length_eq
  have heven : a.flatRanges.length % 2 = 0 := flatMap_pairs_even a.players
  refine (fun hSHperm => ?_) (List.perm_insertionSort
    (fun r1 r2 => optNoteLe (slice (a.flatRanges.foldl sortRange a.whackers) r1).head?
      (slice (a.flatRanges.foldl sortRange a.whackers) r2).head? = true) a.flatRanges)
  have hSHlen : (List.insertionSort
      (fun r1 r2 => optNoteLe (slice (a.flatRanges.foldl sortRange a.whackers) r1).head?
        (slice (a.flatRanges.foldl sortRange a.whackers) r2).head? = true)
      a.flatRanges).length % 2 = 0 := by
    rw [hSHperm.length_eq]
    exact heven
  have hhands : (presentStep a).hands = (List.insertionSort
      (fun r1 r2 => optNoteLe (slice (a.flatRanges.foldl sortRange a.whackers) r1).head?
        (slice (a.flatRanges.foldl sortRange a.whackers) r2).head? = true)
      a.flatRanges).map (slice (a.flatRanges.foldl sortRange a.whackers)) :=
    pairUp_flatMap (slice (a.flatRanges.foldl sortRange a.whackers)) _ hSHlen
  have hflat2 : ((a.flatRanges.map (slice (a.flatRanges.foldl sortRange a.whackers))).flatten)
      = a.flatRanges.foldl sortRange a.whackers := by
    rw [rangesConsecutive_flatten_slices (a.flatRanges.foldl sortRange a.whackers) 0
      a.flatRanges a.whackers.length hcons]
    rw [List.drop_zero, Nat.sub_zero, ← hWlen, List.take_length]
  constructor
  · rw [hhands]
    refine ((hSHperm.map _).flatten).trans ?_
    rw [hflat2]
    exact hWperm.trans hPerm
  · intro hand hmem
    rw [hhands] at hmem
    obtain ⟨r, hrSH, rfl⟩ := List.mem_map.mp hmem
    have hrflat : r ∈ a.flatRanges := hSHperm.mem_iff.mp hrSH
    have hb := hbounds r hrflat
    have hlenslice : (slice (a.flatRanges.foldl sortRange a.whackers) r).length = r.2 - r.1 := by
      simp only [slice, List.length_take, List.length_drop, hWlen]
      omega
    have hsz : r.2 - r.1 ∈ a.flatRanges.map (fun v => v.2 - v.1) :=
      List.mem_map_of_mem _ hrflat
    rw [hRanges] at hsz
    simp only [buildHands] at hsz
    rw [buildHandsAux_sizes] at hsz
    obtain ⟨j, _, hval⟩ := List.mem_map.mp hsz
    rw [hlenslice, ← hval]
    by_cases hje : 0 + j < music.keys.length % (numPlayers * 2)
    · rw [if_pos hje]
      exact Or.inr rfl
    · rw [if_neg hje]
      exact Or.inl rfl

theorem from_search_dissect {rng : RngOps σ}
    (hsh : ∀ (l : List Note) (s : σ), ((rng.shuffle l s).1).Perm l)
    {music : MusicXmlScore} {numPlayers : Nat} {s : σ} {a : FastAssignment}
    (h : FastAssignment.from_search rng music numPlayers s = some a) :
    ∃ b : FastAssignment, InvR music numPlayers b ∧ a = presentStep b := by
  unfold FastAssignment.from_search at h
  cases hrr : runRestarts rng music numPlayers 100 s with
  | none => rw [hrr] at h; cases h
  | some q =>
    rw [hrr] at h
    simp only [Option.some_bind] at h
    cases hmx : maxByScore music q.1 with
    | none => rw [hmx] at h; cases h
    | some b =>
      rw [hmx] at h
      simp only [Option.map_some', Option.some.injEq] at h
      exact ⟨b, runRestarts_InvR hsh 100 s q hrr b (maxByScore_mem hmx), h.symm⟩

/-- C2: partition invariant — the initial random assignment's hands, the assignment
after any swap mutation (from a state satisfying the search invariant), and the hands
of the final `from_search` result all hold, between them, exactly the Schedule's
instruments: the concatenation of all hands is a permutation of the key list, and
when the Schedule's keys are distinct every instrument occurs in exactly one hand
(count 1 for present instruments, 0 for absent ones). -/
theorem c2_partition_invariant (rng : RngOps σ)
    (hsh : ∀ (l : List Note) (s : σ), ((rng.shuffle l s).1).Perm l)
    (music : MusicXmlScore) (numPlayers : Nat) (hp : 0 < numPlayers) (s : σ) :
    ((FastAssignment.random rng music numPlayers s).1.hands.flatten).Perm music.keys ∧
    (∀ (a : FastAssignment) (s₁ : σ) (q : FastAssignment × σ),
        InvR music numPlayers a → FastAssignment.make_swap rng a s₁ = some q →
        InvR music numPlayers q.1 ∧ (q.1.hands.flatten).Perm music.keys) ∧
    (∀ a : FastAssignment, FastAssignment.from_search rng music numPlayers s = some a →
        (a.hands.flatten).Perm music.keys ∧
        (music.keys.Nodup →
          ∀ x : Note, a.hands.flatten.count x = if x ∈ music.keys then 1 else 0)) := by
  refine ⟨InvR_hands_flatten hp (random_InvR rng hsh music numPlayers s), ?_, ?_⟩
  · intro a s₁ q hInv hms
    have hq := (make_swap_InvR hms hInv).1
    exact ⟨hq, InvR_hands_flatten hp hq⟩
  · intro a hfs
    obtain ⟨b, hbInv, rfl⟩ := from_search_dissect hsh hfs
    have hspec := presentStep_spec hp hbInv
    refine ⟨hspec.1, ?_⟩
    intro hnd x
    by_cases hx : x ∈ music.keys
    · rw [if_pos hx, List.Perm.count_eq hspec.1]
      exact List.count_eq_one_of_mem hnd hx
    · rw [if_neg hx, List.Perm.count_eq hspec.1]
      exact List.count_eq_zero_of_not_mem hx

/-- Witness for C2: the one-instrument schedule with one player under the trivial
generator. -/
theorem c2_partition_invariant_witness :
    (∀ (l : List Note) (s : Unit), ((rngId.shuffle l s).1).Perm l) ∧ 0 < 1 ∧
    (((FastAssignment.random rngId musicOne 1 ()).1.hands.flatten).Perm musicOne.keys ∧
    (∀ (a : FastAssignment) (s₁ : Unit) (q : FastAssignment × Unit),
        InvR musicOne 1 a → FastAssignment.make_swap rngId a s₁ = some q →
        InvR musicOne 1 q.1 ∧ (q.1.hands.flatten).Perm musicOne.keys) ∧
    (∀ a : FastAssignment, FastAssignment.from_search rngId musicOne 1 () = some a →
        (a.hands.flatten).Perm musicOne.keys ∧
        (musicOne.keys.Nodup →
          ∀ x : Note, a.hands.flatten.count x = if x ∈ musicOne.keys then 1 else 0))) :=
  ⟨fun l _ => List.Perm.refl l, by decide,
    c2_partition_invariant rngId (fun l _ => List.Perm.refl l) musicOne 1 (by decide) ()⟩

/-- C10: the swap mutation only exchanges the contents of two drawn positions of the
flat whacker list — every other position and the whole `players` range structure are
untouched — and consequently every hand of the search result holds either
`⌊n / h⌋` or `⌊n / h⌋ + 1` instruments, where `n` is the number of instruments and
`h = 2 × num_players`. -/
theorem c10_swap_frame (rng : RngOps σ)
    (hg : ∀ (n : Nat) (s : σ), 0 < n → (rng.genRange n s).1 < n)
    (hsh : ∀ (l : List Note) (s : σ), ((rng.shuffle l s).1).Perm l)
    (music : MusicXmlScore) (numPlayers : Nat) (hp : 0 < numPlayers) (s : σ) :
    (∀ (a : FastAssignment) (s₁ : σ) (q : FastAssignment × σ),
        FastAssignment.make_swap rng a s₁ = some q →
        q.1.players = a.players ∧
        ∃ i j, i < a.whackers.length ∧ j < a.whackers.length ∧
          q.1.whackers = listSwap a.whackers i j ∧
          ∀ k, k ≠ i → k ≠ j → q.1.whackers[k]? = a.whackers[k]?) ∧
    (∀ a : FastAssignment, FastAssignment.from_search rng music numPlayers s = some a →
        ∀ hand ∈ a.hands,
          hand.length = music.keys.length / (numPlayers * 2) ∨
          hand.length = music.keys.length / (numPlayers * 2) + 1) := by
  constructor
  · intro a s₁ q h
    by_cases h0 : a.whackers.length = 0
    · simp only [FastAssignment.make_swap, if_pos h0] at h
      cases h
    · simp only [FastAssignment.make_swap, if_neg h0] at h
      rw [Option.some.injEq] at h
      have hfst := congrArg Prod.fst h
      have hlen : 0 < a.whackers.length := Nat.pos_of_ne_zero h0
      refine ⟨?_, (rng.genRange a.whackers.length s₁).1,
        (rng.genRange a.whackers.length (rng.genRange a.whackers.length s₁).2).1,
        hg _ _ hlen, hg _ _ hlen, ?_, ?_⟩
      · rw [← hfst]
      · rw [← hfst]
      · intro k hki hkj
        rw [← hfst]
        exact listSwap_getElem?_ne a.whackers _ _ k hki hkj
  · intro a hfs
    obtain ⟨b, hbInv, rfl⟩ := from_search_dissect hsh hfs
    exact (presentStep_spec hp hbInv).2

/-- Witness for C10: the one-instrument schedule with one player under the trivial
generator (whose draws are 0, within bounds for any non-empty list). -/
theorem c10_swap_frame_witness :
    (∀ (n : Nat) (s : Unit), 0 < n → (rngId.genRange n s).1 < n) ∧
    (∀ (l : List Note) (s : Unit), ((rngId.shuffle l s).1).Perm l) ∧ 0 < 1 ∧
    ((∀ (a : FastAssignment) (s₁ : Unit) (q : FastAssignment × Unit),
        FastAssignment.make_swap rngId a s₁ = some q →
        q.1.players = a.players ∧
        ∃ i j, i < a.whackers.length ∧ j < a.whackers.length ∧
          q.1.whackers = listSwap a.whackers i j ∧
          ∀ k, k ≠ i → k ≠ j → q.1.whackers[k]? = a.whackers[k]?) ∧
    (∀ a : FastAssignment, FastAssignment.from_search rngId musicOne 1 () = some a →
        ∀ hand ∈ a.hands,
          hand.length = musicOne.keys.length / (1 * 2) ∨
          hand.length = musicOne.keys.length / (1 * 2) + 1)) :=
  ⟨fun _ _ h => h, fun l _ => List.Perm.refl l, by decide,
    c10_swap_frame rngId (fun _ _ h => h) (fun l _ => List.Perm.refl l) musicOne 1
      (by decide) ()⟩

/-- C8: the initial random assignment gives every hand `⌊n / h⌋` instruments with
exactly the first `n mod h` hands (in range order) receiving one extra, where `n` is
the number of instruments and `h = 2 × num_players`; hence no hand is empty when
`h ≤ n`. -/
theorem c8_initial_hand_sizes (rng : RngOps σ)
    (hsh : ∀ (l : List Note) (s : σ), ((rng.shuffle l s).1).Perm l)
    (music : MusicXmlScore) (numPlayers : Nat) (hp : 0 < numPlayers) (s : σ) :
    ((FastAssignment.random rng music numPlayers s).1.hands.map List.length =
      (List.range (numPlayers * 2)).map
        (fun i => music.keys.length / (numPlayers * 2) +
          if i < music.keys.length % (numPlayers * 2) then 1 else 0)) ∧
    (numPlayers * 2 ≤ music.keys.length →
      ∀ hand ∈ (FastAssignment.random rng music numPlayers s).1.hands, hand ≠ []) := by
  obtain ⟨hPerm, hRanges⟩ := random_InvR rng hsh music numPlayers s
  have hh : 0 < numPlayers * 2 := by omega
  have hwlen : (FastAssignment.random rng music numPlayers s).1.whackers.length
      = music.keys.length := hPerm.length_eq
  have hcons : rangesConsecutive 0 (FastAssignment.random rng music numPlayers s).1.flatRanges
      (FastAssignment.random rng music numPlayers s).1.whackers.length := by
    rw [hRanges, hwlen]
    exact buildHands_consecutive_total _ _ hh
  have hbounds := rangesConsecutive_bounds _ _ _ hcons
  have heq : (FastAssignment.random rng music numPlayers s).1.hands.map List.length =
      (List.range (numPlayers * 2)).map
        (fun i => music.keys.length / (numPlayers * 2) +
          if i < music.keys.length % (numPlayers * 2) then 1 else 0) := by
    rw [hands_eq_map, List.map_map]
    have hmid : (FastAssignment.random rng music numPlayers s).1.flatRanges.map
        (List.length ∘ slice (FastAssignment.random rng music numPlayers s).1.whackers) =
        (FastAssignment.random rng music numPlayers s).1.flatRanges.map (fun r => r.2 - r.1) := by
      apply List.map_congr_left
      intro r hr
      have hb := hbounds r hr
      simp only [Function.comp_apply, slice, List.length_take, List.length_drop]
      omega
    rw [hmid, hRanges]
    simp only [buildHands]
    rw [buildHandsAux_sizes]
    apply List.map_congr_left
    intro j _
    congr 1
    exact if_congr (by omega) rfl rfl
  refine ⟨heq, ?_⟩
  intro hle hand hmem
  have hbase : 1 ≤ music.keys.length / (numPlayers * 2) := (Nat.one_le_div_iff hh).mpr hle
  have hmem2 : hand.length ∈ (FastAssignment.random rng music numPlayers s).1.hands.map
      List.length := List.mem_map_of_mem _ hmem
  rw [heq] at hmem2
  obtain ⟨j, _, hval⟩ := List.mem_map.mp hmem2
  intro hnil
  rw [hnil] at hval
  simp only [List.length_nil] at hval
  by_cases hje : j < music.keys.length % (numPlayers * 2)
  · rw [if_pos hje] at hval
    omega
  · rw [if_neg hje] at hval
    omega

/-- Witness for C8: the one-instrument schedule with one player under the trivial
generator. -/
theorem c8_initial_hand_sizes_witness :
    (∀ (l : List Note) (s : Unit), ((rngId.shuffle l s).1).Perm l) ∧ 0 < 1 ∧
    (((FastAssignment.random rngId musicOne 1 ()).1.hands.map List.length =
      (List.range (1 * 2)).map
        (fun i => musicOne.keys.length / (1 * 2) +
          if i < musicOne.keys.length % (1 * 2) then 1 else 0)) ∧
    (1 * 2 ≤ musicOne.keys.length →
      ∀ hand ∈ (FastAssignment.random rngId musicOne 1 ()).1.hands, hand ≠ [])) :=
  ⟨fun l _ => List.Perm.refl l, by decide,
    c8_initial_hand_sizes rngId (fun l _ => List.Perm.refl l) musicOne 1 (by decide) ()⟩

/-!  Evaluation lemmas for the restart-selection scenarios: under a generator whose
swap draws always hit position 0, every gradient step is a no-op, so each restart
returns its initial random assignment unchanged. -/

theorem loopConst {rng : RngOps σ} {music : MusicXmlScore} {a : FastAssignment}
    (hstep : ∀ s : σ, gradientStep rng music a s = some (a, s)) :
    ∀ (n : Nat) (s : σ), gradientLoop rng music n a s = some (a, s)
  | 0, _ => rfl
  | n + 1, s => by
    simp only [gradientLoop, hstep s, Option.some_bind]
    exact loopConst hstep n s

theorem stepRev_fwd (s : Nat) : gradientStep rngRev musicThree aThreeFwd s
    = some (aThreeFwd, s) := by
  have hms : FastAssignment.make_swap rngRev aThreeFwd s = some (aThreeFwd, s) := rfl
  simp only [gradientStep, hms, Option.map_some']
  rw [if_neg (lt_irrefl (aThreeFwd.score musicThree))]

theorem stepRev_rev (s : Nat) : gradientStep rngRev musicThree aThreeRev s
    = some (aThreeRev, s) := by
  have hms : FastAssignment.make_swap rngRev aThreeRev s = some (aThreeRev, s) := rfl
  simp only [gradientStep, hms, Option.map_some']
  rw [if_neg (lt_irrefl (aThreeRev.score musicThree))]

theorem gaRev_zero : gradient_ascent rngRev musicThree 1 0 = some (aThreeFwd, 1) := by
  have hrand : FastAssignment.random rngRev musicThree 1 0 = (aThreeFwd, 1) := by decide
  unfold gradient_ascent
  rw [hrand]
  exact loopConst stepRev_fwd 1000 1

theorem randRev_pos (s : Nat) (hs : s ≠ 0) :
    FastAssignment.random rngRev musicThree 1 s = (aThreeRev, s + 1) := by
  have hshuf : rngRev.shuffle (List.insertionSort (· ≤ ·) musicThree.keys) s
      = ([2, 1, 0], s + 1) := by
    show (if s = 0 then List.insertionSort (· ≤ ·) musicThree.keys
        else (List.insertionSort (· ≤ ·) musicThree.keys).reverse, s + 1) = ([2, 1, 0], s + 1)
    rw [if_neg hs]
    rw [show (List.insertionSort (· ≤ ·) musicThree.keys).reverse = [2, 1, 0] from by decide]
  simp only [FastAssignment.random, hshuf]
  rfl

theorem gaRev_pos (s : Nat) (hs : s ≠ 0) :
    gradient_ascent rngRev musicThree 1 s = some (aThreeRev, s + 1) := by
  unfold gradient_ascent
  rw [randRev_pos s hs]
  exact loopConst stepRev_rev 1000 (s + 1)

theorem restartsRev : ∀ (k s : Nat), s ≠ 0 →
    runRestarts rngRev musicThree 1 k s = some (List.replicate k aThreeRev, s + k)
  | 0, s, _ => by simp [runRestarts]
  | k + 1, s, hs => by
    simp only [runRestarts, gaRev_pos s hs, Option.some_bind]
    rw [restartsRev k (s + 1) (by omega)]
    simp only [Option.map_some', List.replicate_succ]
    exact congrArg some (Prod.ext rfl (by omega))

theorem runRevSucc (k : Nat) : runRestarts rngRev musicThree 1 (k + 1) 0
    = some (aThreeFwd :: List.replicate k aThreeRev, 1 + k) := by
  simp only [runRestarts, gaRev_zero, Option.some_bind]
  rw [restartsRev k 1 (by omega)]
  simp only [Option.map_some']

theorem runRev100 : runRestarts rngRev musicThree 1 100 0
    = some (aThreeFwd :: List.replicate 99 aThreeRev, 100) := runRevSucc 99

theorem scoreRev_fwd : aThreeFwd.score musicThree = -1 / 10 := by
  norm_num [FastAssignment.score, aThreeFwd, slice, score_for_player, score_for_hand,
    musicThree, whacksThree, initialHeldIdx, positionMinWhack, positionMinWhackAux,
    findNext, findNextAux, mergeLoop, popAt, Whack.blt, List.headI]

theorem scoreRev_rev : aThreeRev.score musicThree = -1 / 10 := by
  norm_num [FastAssignment.score, aThreeRev, slice, score_for_player, score_for_hand,
    musicThree, whacksThree, initialHeldIdx, positionMinWhack, positionMinWhackAux,
    findNext, findNextAux, mergeLoop, popAt, Whack.blt, List.headI]

theorem foldRevRep : ∀ k : Nat,
    (List.replicate k aThreeRev).foldl
      (fun best a => if a.score musicThree < best.score musicThree then best else a)
      aThreeRev = aThreeRev
  | 0 => rfl
  | k + 1 => by
    rw [List.replicate_succ, List.foldl_cons,
      if_neg (lt_irrefl (aThreeRev.score musicThree))]
    exact foldRevRep k

theorem maxRev : maxByScore musicThree (aThreeFwd :: List.replicate 99 aThreeRev)
    = some aThreeRev := by
  simp only [maxByScore]
  refine congrArg some ?_
  rw [show (99 : Nat) = 98 + 1 from rfl, List.replicate_succ, List.foldl_cons]
  rw [show (if aThreeRev.score musicThree < aThreeFwd.score musicThree
      then aThreeFwd else aThreeRev) = aThreeRev from
    if_neg (by rw [scoreRev_fwd, scoreRev_rev]; exact lt_irrefl _)]
  exact foldRevRep 98

theorem fsRev : FastAssignment.from_search rngRev musicThree 1 0
    = some (presentStep aThreeRev) := by
  unfold FastAssignment.from_search
  rw [runRev100]
  simp only [Option.some_bind]
  rw [maxRev]
  simp only [Option.map_some']

theorem presentRev_eq : presentStep aThreeRev
    = ⟨[1, 2, 0], [((2, 3), (0, 2))]⟩ := by decide

theorem scorePresentRev : (presentStep aThreeRev).score musicThree = -1 / 10 := by
  rw [presentRev_eq]
  norm_num [FastAssignment.score, slice, score_for_player, score_for_hand,
    musicThree, whacksThree, initialHeldIdx, positionMinWhack, positionMinWhackAux,
    findNext, findNextAux, mergeLoop, popAt, Whack.blt, List.headI]

theorem newRev : Assignment.new rngRev musicThree 1 0
    = some ⟨[([0], [1, 2])], -1 / 10⟩ := by
  simp only [Assignment.new, fsRev, Option.map_some', Option.some.injEq]
  refine congrArg₂ Assignment.mk ?_ scorePresentRev
  rw [presentRev_eq]
  decide

/-!  The selection semantics of `max_by_key`: on ties the later element wins. -/

theorem foldMax_lt {music : MusicXmlScore} {b : FastAssignment} :
    ∀ l₂ : List FastAssignment, (∀ x ∈ l₂, x.score music < b.score music) →
      l₂.foldl (fun best a => if a.score music < best.score music then best else a) b = b
  | [], _ => rfl
  | x :: t, h => by
    rw [List.foldl_cons, if_pos (h x (List.mem_cons_self x t))]
    exact foldMax_lt t (fun y hy => h y (List.mem_cons_of_mem x hy))

theorem foldMax_pre {music : MusicXmlScore} {b : FastAssignment} {l₂ : List FastAssignment}
    (h₂ : ∀ x ∈ l₂, x.score music < b.score music) :
    ∀ (l₁ : List FastAssignment) (x : FastAssignment), x.score music ≤ b.score music →
      (∀ y ∈ l₁, y.score music ≤ b.score music) →
      (l₁ ++ b :: l₂).foldl
        (fun best a => if a.score music < best.score music then best else a) x = b
  | [], x, hx, _ => by
    rw [List.nil_append, List.foldl_cons, if_neg (not_lt.mpr hx)]
    exact foldMax_lt l₂ h₂
  | y :: t, x, hx, h₁ => by
    rw [List.cons_append, List.foldl_cons]
    by_cases hc : y.score music < x.score music
    · rw [if_pos hc]
      exact foldMax_pre h₂ t x hx (fun z hz => h₁ z (List.mem_cons_of_mem y hz))
    · rw [if_neg hc]
      exact foldMax_pre h₂ t y (h₁ y (List.mem_cons_self y t))
        (fun z hz => h₁ z (List.mem_cons_of_mem y hz))

theorem maxByScore_last_tie {music : MusicXmlScore} {l₁ l₂ : List FastAssignment}
    {b : FastAssignment} (h₁ : ∀ x ∈ l₁, x.score music ≤ b.score music)
    (h₂ : ∀ x ∈ l₂, x.score music < b.score music) :
    maxByScore music (l₁ ++ b :: l₂) = some b := by
  cases l₁ with
  | nil =>
    simp only [List.nil_append, maxByScore]
    exact congrArg some (foldMax_lt l₂ h₂)
  | cons x t =>
    simp only [List.cons_append, maxByScore]
    exact congrArg some (foldMax_pre h₂ t x (h₁ x (List.mem_cons_self x t))
      (fun z hz => h₁ z (List.mem_cons_of_mem x hz)))

theorem runRestarts_length {rng : RngOps σ} {music : MusicXmlScore} {numPlayers : Nat} :
    ∀ (n : Nat) (s : σ) (q : List FastAssignment × σ),
      runRestarts rng music numPlayers n s = some q → q.1.length = n
  | 0, _, q, h => by
    simp only [runRestarts, Option.some.injEq] at h
    rw [← h]
    rfl
  | n + 1, s, q, h => by
    simp only [runRestarts] at h
    cases hga : gradient_ascent rng music numPlayers s with
    | none => rw [hga] at h; cases h
    | some p =>
      rw [hga] at h
      simp only [Option.some_bind] at h
      cases hrr : runRestarts rng music numPlayers n p.2 with
      | none => rw [hrr] at h; cases h
      | some q2 =>
        rw [hrr] at h
        simp only [Option.map_some', Option.some.injEq] at h
        rw [← h]
        simp only [List.length_cons, runRestarts_length n p.2 q2 hrr]

/-- C5 (counterexample): under `rngRev`, restart 0 ends at `aThreeFwd` and every
later restart at `aThreeRev`; the two restarts tie at score −1/10 but are different
partitions (hands `{0, 1} / {2}` versus `{2, 1} / {0}`).  The search output is the
presentation of the LAST tied restart, players `[([0], [1, 2])]`; under the claimed
first-seen-wins tie rule it would have been `[([0, 1], [2])]`, the presentation of
restart 0 (`presentStep aThreeFwd` keeps hands `{0, 1}` and `{2}`). -/
theorem c5_counterexample :
    gradient_ascent rngRev musicThree 1 0 = some (aThreeFwd, 1) ∧
    gradient_ascent rngRev musicThree 1 1 = some (aThreeRev, 2) ∧
    aThreeFwd.score musicThree = aThreeRev.score musicThree ∧
    presentStep aThreeFwd = ⟨[0, 1, 2], [((0, 2), (2, 3))]⟩ ∧
    Assignment.new rngRev musicThree 1 0 = some ⟨[([0], [1, 2])], -1 / 10⟩ ∧
    Assignment.new rngRev musicThree 1 0 ≠ some ⟨[([0, 1], [2])], -1 / 10⟩ := by
  refine ⟨gaRev_zero, by rw [gaRev_pos 1 (by omega)], by rw [scoreRev_fwd, scoreRev_rev],
    by decide, newRev, ?_⟩
  rw [newRev]
  intro hcon
  simp only [Option.some.injEq, Assignment.mk.injEq] at hcon
  exact absurd hcon.1 (by decide)

/-- C5 (amended): the outer loop runs exactly 100 restarts and returns the restart
whose final Score is greatest, but ties are broken in favour of the LAST-encountered
restart: `max_by_key` replaces its running maximum whenever a later element's key is
not strictly smaller.  If the 100 restart results split as `l₁ ++ b :: l₂` with
everything before `b` scoring at most `b`'s score and everything after `b` scoring
strictly less, the search returns the presentation of `b`. -/
theorem c5_restart_selection_amended (rng : RngOps σ) (music : MusicXmlScore)
    (numPlayers : Nat) (s : σ) (results : List FastAssignment) (s₂ : σ)
    (l₁ l₂ : List FastAssignment) (b : FastAssignment)
    (hrun : runRestarts rng music numPlayers 100 s = some (results, s₂))
    (hsplit : results = l₁ ++ b :: l₂)
    (h₁ : ∀ x ∈ l₁, x.score music ≤ b.score music)
    (h₂ : ∀ x ∈ l₂, x.score music < b.score music) :
    results.length = 100 ∧
    FastAssignment.from_search rng music numPlayers s = some (presentStep b) := by
  refine ⟨runRestarts_length 100 s (results, s₂) hrun, ?_⟩
  unfold FastAssignment.from_search
  rw [hrun]
  simp only [Option.some_bind]
  rw [hsplit, maxByScore_last_tie h₁ h₂]
  simp only [Option.map_some']

theorem stepId (s : Unit) : gradientStep rngId musicOne aOne s = some (aOne, s) := by
  have hms : FastAssignment.make_swap rngId aOne s = some (aOne, s) := rfl
  simp only [gradientStep, hms, Option.map_some']
  rw [if_neg (lt_irrefl (aOne.score musicOne))]

theorem gaId (s : Unit) : gradient_ascent rngId musicOne 1 s = some (aOne, s) := by
  have hrand : FastAssignment.random rngId musicOne 1 s = (aOne, s) := by cases s; rfl
  unfold gradient_ascent
  rw [hrand]
  exact loopConst stepId 1000 s

theorem restartsId : ∀ (k : Nat) (s : Unit),
    runRestarts rngId musicOne 1 k s = some (List.replicate k aOne, s)
  | 0, _ => rfl
  | k + 1, s => by
    simp only [runRestarts, gaId s, Option.some_bind]
    rw [restartsId k s]
    simp only [Option.map_some', List.replicate_succ]

/-- Witness for C5's amended theorem: under the trivial generator on the
one-instrument schedule all 100 restarts tie, and the search returns the
presentation of the last of them. -/
theorem c5_restart_selection_amended_witness :
    runRestarts rngId musicOne 1 100 () = some (List.replicate 100 aOne, ()) ∧
    List.replicate 100 aOne = List.replicate 99 aOne ++ aOne :: [] ∧
    (∀ x ∈ List.replicate 99 aOne, x.score musicOne ≤ aOne.score musicOne) ∧
    (∀ x ∈ ([] : List FastAssignment), x.score musicOne < aOne.score musicOne) ∧
    ((List.replicate 100 aOne).length = 100 ∧
      FastAssignment.from_search rngId musicOne 1 () = some (presentStep aOne)) :=
  ⟨restartsId 100 (), by rw [← List.replicate_succ'],
   fun x hx => le_of_eq (by rw [List.eq_of_mem_replicate hx]),
   fun x hx => absurd hx (List.not_mem_nil x),
   c5_restart_selection_amended rngId musicOne 1 () (List.replicate 100 aOne) ()
     (List.replicate 99 aOne) [] aOne (restartsId 100 ()) (by rw [← List.replicate_succ'])
     (fun x hx => le_of_eq (by rw [List.eq_of_mem_replicate hx]))
     (fun x hx => absurd hx (List.not_mem_nil x))⟩

end Boomwhackers
